import Mathlib

/-!
Verification of the image-fetching proxy/aggregator route
(`src/app/api/images-zip/route.js`).

Shallow embedding conventions:
* JS strings are modelled as `List Char` (`Str`); `String.toLowerCase` is
  modelled char-wise by `Char.toLower` (ASCII case mapping, which covers the
  ASCII names, extensions and digits this route manipulates).
* JS exceptions are modelled with `Except Str`: a `.error` value is a thrown
  exception crossing the function boundary, `.ok` a normal return.
* Network nondeterminism is an oracle: for `fetchWithRetries` a function
  `Nat → Nat → Option FetchOk` giving the outcome of the fetch performed at
  (attempt index, try index), try 0 being the direct URL and tries 1..5 the
  proxy endpoints; for the archive builder a per-item outcome oracle.
* The concurrent archive assembly is sequentialised in input order; the spec
  itself notes (§5) that archive contents are order-independent, and all the
  properties proved below depend only on per-item outcomes, not on
  interleaving.
-/

set_option maxHeartbeats 1000000

/-- Character-list model of JS strings. -/
abbrev Str := List Char

/-- Coerce a Lean string literal into the model. -/
def str (s : String) : Str := s.data

/-- Char-wise model of `String.prototype.toLowerCase` (ASCII range). -/
def toLowerStr (s : Str) : Str := s.map Char.toLower

/-- Does `pat` occur at the start of `s`? (helper for substring search). -/
def beginsWith : Str → Str → Bool
  | [], _ => true
  | _ :: _, [] => false
  | a :: as, b :: bs => a = b && beginsWith as bs

/-- JS `s.includes(pat)`: substring occurrence test. -/
def hasSub (pat : Str) : Str → Bool
  | [] => beginsWith pat []
  | c :: rest => beginsWith pat (c :: rest) || hasSub pat rest

/-- Decimal digit character (for `d < 10`). -/
def digitChar (d : Nat) : Char := Char.ofNat (48 + d)

/-- Fuel-driven decimal conversion; structural so that the kernel can
evaluate it (`natToStr` supplies sufficient fuel). -/
def natToStrAux : Nat → Nat → Str
  | 0, _ => []
  | fuel + 1, n => if n < 10 then [digitChar n]
      else natToStrAux fuel (n / 10) ++ [digitChar (n % 10)]

/-- Model of JS number-to-string conversion for naturals (template literals
such as `image_2`). -/
def natToStr (n : Nat) : Str := natToStrAux (n + 1) n

/-- Decimal value of a digit string (used to invert `natToStr`). -/
def valOf (l : Str) : Nat := l.foldl (fun a c => 10 * a + (c.toNat - 48)) 0

/- ───────────────────────── sanitize ───────────────────────── -/

/-- Characters replaced by `_` in `sanitize`: the class
`[\\/:*?"<>|\x00-\x1F]`. -/
def jsUnsafe (c : Char) : Bool :=
  c = '\\' || c = '/' || c = ':' || c = '*' || c = '?' || c = '"' ||
  c = '<' || c = '>' || c = '|' || c.toNat ≤ 0x1F

/-- The JS `\s` character class (whitespace as used by `replace(/\s+/g)` and
`trim`). -/
def jsWs (c : Char) : Bool :=
  let n := c.toNat
  n = 32 || (9 ≤ n && n ≤ 13) || n = 160 || n = 5760 ||
  (8192 ≤ n && n ≤ 8202) || n = 8232 || n = 8233 || n = 8239 ||
  n = 8287 || n = 12288 || n = 65279

/-- Model of `.replace(/\s+/g, " ")`: each maximal whitespace run becomes a
single space.  The boolean argument records whether the previous character
was whitespace. -/
def collapseWsAux : Bool → Str → Str
  | _, [] => []
  | prevWs, c :: rest =>
    if jsWs c then
      if prevWs then collapseWsAux true rest
      else ' ' :: collapseWsAux true rest
    else c :: collapseWsAux false rest

/-- Model of `String.prototype.trim`. -/
def trimWs (s : Str) : Str :=
  ((s.dropWhile jsWs).reverse.dropWhile jsWs).reverse

/-- Model of the route's `sanitize`:
`String(s || "file").replace(unsafe, "_").replace(/\s+/g, " ").trim() || "file"`. -/
def sanitize (s : Str) : Str :=
  let s0 := if s = [] then str "file" else s
  let s1 := s0.map (fun c => if jsUnsafe c then '_' else c)
  let s2 := trimWs (collapseWsAux false s1)
  if s2 = [] then str "file" else s2

/- ───────────────────────── extensions ───────────────────────── -/

/-- Does the list contain a dot? -/
def hasDot : Str → Bool
  | [] => false
  | c :: rest => c = '.' || hasDot rest

/-- Test `/\.[^.]+$/` on the reversed string: the last character exists, is
not a dot, and some dot occurs before it. -/
def revHasExt : Str → Bool
  | [] => false
  | c :: rest => decide (c ≠ '.') && hasDot rest

/-- Model of the regex test `/\.[^.]+$/.test(name)`: the name carries a final
dot-suffix. -/
def hasExt (s : Str) : Bool := revHasExt s.reverse

/-- List of extensions recognised by `inferExt`'s URL fallback regex. -/
def extNames : List Str :=
  [str "png", str "jpg", str "jpeg", str "gif", str "bmp",
   str "webp", str "svg", str "avif", str "tiff"]

/-- Case-insensitive ends-with test (the regex is `/…$/i`). -/
def endsWithCI (suffix s : Str) : Bool :=
  beginsWith (toLowerStr suffix).reverse (toLowerStr s).reverse

/-- URL-path fallback of `inferExt`: `url.split("?")[0]` matched against
`/\.(png|jpg|jpeg|gif|bmp|webp|svg|avif|tiff)$/i`, returning the matched
text lower-cased. -/
def urlExtMatch (url : Str) : Option Str :=
  let clean := url.takeWhile (fun c => c ≠ '?')
  (extNames.find? (fun e => endsWithCI ('.' :: e) clean)).map (fun e => '.' :: e)

/-- Model of the route's `inferExt(contentType, url)` (the JS binds
`ct = contentType.toLowerCase()`, inlined here as `toLowerStr contentType`). -/
def inferExt (contentType url : Str) : Str :=
  if hasSub (str "png") (toLowerStr contentType) then str ".png"
  else if hasSub (str "jpeg") (toLowerStr contentType) ||
      hasSub (str "jpg") (toLowerStr contentType) then str ".jpg"
  else if hasSub (str "gif") (toLowerStr contentType) then str ".gif"
  else if hasSub (str "bmp") (toLowerStr contentType) then str ".bmp"
  else if hasSub (str "webp") (toLowerStr contentType) then str ".webp"
  else if hasSub (str "svg") (toLowerStr contentType) then str ".svg"
  else if hasSub (str "avif") (toLowerStr contentType) then str ".avif"
  else if hasSub (str "tiff") (toLowerStr contentType) then str ".tiff"
  else match urlExtMatch url with
    | some e => e
    | none => str ".jpg"

/- ───────────────────────── ensureUnique ───────────────────────── -/

/-- Scan the reversed name up to the first dot: returns the characters seen
before the dot (in reversed order) and the remainder starting at the dot
(empty when there is no dot).  Implements `name.lastIndexOf(".")`. -/
def breakAtDotRev : Str → Str × Str
  | [] => ([], [])
  | c :: rest =>
    if c = '.' then ([], c :: rest)
    else
      let p := breakAtDotRev rest
      (c :: p.1, p.2)

/-- Model of the base/ext split in `ensureUnique`:
`dot = name.lastIndexOf("."); dot > 0 ? (slice(0,dot), slice(dot)) : (name, "")`.
When `breakAtDotRev` found a dot its second component starts with that dot
(see `breakAtDotRev_snd_shape`); a second component of length ≥ 2 means the
last dot sits at an index > 0, i.e. the JS `dot > 0` branch. -/
def splitAtLastDot (name : Str) : Str × Str :=
  match (breakAtDotRev name.reverse).2 with
  | _ :: d :: rt => ((d :: rt).reverse, '.' :: (breakAtDotRev name.reverse).1.reverse)
  | _ => (name, [])

/-- The k-th candidate tried by `ensureUnique`'s loop: candidate 0 is
`base + ext` (the name itself) and candidate k (k ≥ 1) is
`base + "_" + (k+1) + ext`. -/
def candidateAt (name : Str) (k : Nat) : Str :=
  let p := splitAtLastDot name
  match k with
  | 0 => p.1 ++ p.2
  | Nat.succ j => p.1 ++ '_' :: natToStr (j + 2) ++ p.2

/-- Fuel-driven search for the first candidate index whose lower-cased form
is not in the used set; models the `while (usedLowerSet.has(...))` loop.
`ensureUnique` supplies fuel `used.length + 1`, which is proved sufficient
below (the candidates are pairwise distinct, so they cannot all be used). -/
def findFree (name : Str) (used : List Str) : Nat → Nat → Nat
  | k, 0 => k
  | k, fuel + 1 =>
    if toLowerStr (candidateAt name k) ∈ used then findFree name used (k + 1) fuel
    else k

/-- Model of the route's `ensureUnique(name, usedLowerSet)`: returns the
chosen entry name and the grown used set (the JS `Set` is modelled as the
list of registered lower-cased names). -/
def ensureUnique (name : Str) (used : List Str) : Str × List Str :=
  let c := candidateAt name (findFree name used 0 (used.length + 1))
  (c, toLowerStr c :: used)

example : sanitize (str "a b") = str "a b" := by decide
example : sanitize (str "  a?  b ") = str "a_ b" := by decide
example : sanitize (str "   ") = str "file" := by decide
example : hasExt (str "a.png") = true := by decide
example : hasExt (str "a.") = false := by decide
example : hasExt (str "apng") = false := by decide
example : inferExt (str "image/PNG") (str "u") = str ".png" := by decide
example : inferExt (str "") (str "https://x/a.JPeG?q=1") = str ".jpeg" := by decide
example : inferExt (str "") (str "https://x/a") = str ".jpg" := by decide
example : ensureUnique (str "a.png") [str "a.png"] =
    (str "a_2.png", [str "a_2.png", str "a.png"]) := by decide
example : ensureUnique (str "A.png") [str "a.png", str "a_2.png"] =
    (str "A_3.png", [str "a_3.png", str "a.png", str "a_2.png"]) := by decide

/- ───────────────────────── proxy URL construction ───────────────────────── -/

/-- UTF-8 bytes of a Unicode scalar value (used by `encodeURIComponent`). -/
def utf8Bytes (c : Char) : List Nat :=
  let n := c.toNat
  if n < 0x80 then [n]
  else if n < 0x800 then [0xC0 + n / 0x40, 0x80 + n % 0x40]
  else if n < 0x10000 then
    [0xE0 + n / 0x1000, 0x80 + (n / 0x40) % 0x40, 0x80 + n % 0x40]
  else
    [0xF0 + n / 0x40000, 0x80 + (n / 0x1000) % 0x40,
     0x80 + (n / 0x40) % 0x40, 0x80 + n % 0x40]

/-- Upper-case hexadecimal digit (JS percent-encoding uses upper case). -/
def hexDigitChar (d : Nat) : Char :=
  if d < 10 then digitChar d else Char.ofNat (55 + d)

/-- Characters `encodeURIComponent` leaves unescaped:
`A-Z a-z 0-9 - _ . ! ~ * ( )` and the apostrophe (code 39). -/
def uriUnescaped (c : Char) : Bool :=
  ('A' ≤ c && c ≤ 'Z') || ('a' ≤ c && c ≤ 'z') || ('0' ≤ c && c ≤ '9') ||
  c = '-' || c = '_' || c = '.' || c = '!' || c = '~' || c = '*' ||
  c.toNat = 39 || c = '(' || c = ')'

/-- Model of JS `encodeURIComponent`. -/
def encodeURIComponent (s : Str) : Str :=
  s.flatMap (fun c =>
    if uriUnescaped c then [c]
    else (utf8Bytes c).flatMap
      (fun b => ['%', hexDigitChar (b / 16), hexDigitChar (b % 16)]))

/-- The `u.replace(/^https?:\/\//i, "").replace(/^\/+/, "")` preprocessing
feeding the weserv proxy. -/
def hostPath (u : Str) : Str :=
  let lu := toLowerStr u
  let noScheme :=
    if beginsWith (str "https://") lu then u.drop 8
    else if beginsWith (str "http://") lu then u.drop 7
    else u
  noScheme.dropWhile (fun c => c = '/')

/-- Model of the route's `buildProxyUrls`: the fixed, ordered list of the
five proxy relay endpoints. -/
def buildProxyUrls (rawUrl : Str) : List Str :=
  [str "https://api.allorigins.win/raw?url=" ++ encodeURIComponent rawUrl,
   str "https://images.weserv.nl/?url=" ++ encodeURIComponent (hostPath rawUrl),
   str "https://api.codetabs.com/v1/proxy?quest=" ++ encodeURIComponent rawUrl,
   str "https://cors.isomorphic-git.org/" ++ rawUrl,
   str "https://thingproxy.freeboard.io/fetch/" ++ rawUrl]

/- ───────────────────────── fetchWithRetries ───────────────────────── -/

/-- Successful `fetchOnce` outcome: body bytes plus the response
content-type (`""` when the header is absent, as in the source). -/
structure FetchOk where
  bytes : List Nat
  contentType : Str
deriving DecidableEq, Repr

instance {α β : Type} [DecidableEq α] [DecidableEq β] :
    DecidableEq (Except α β) := fun a b =>
  match a, b with
  | .ok x, .ok y =>
    if h : x = y then isTrue (by rw [h]) else isFalse (by simp [h])
  | .error x, .error y =>
    if h : x = y then isTrue (by rw [h]) else isFalse (by simp [h])
  | .ok _, .error _ => isFalse (by simp)
  | .error _, .ok _ => isFalse (by simp)

/-- Observable events of one `fetchWithRetries` run.  `tryFetch i j u` is
the `fetchOnce` call of attempt `i` at try index `j` (0 = the direct URL,
1..5 = the proxies, in `buildProxyUrls` order) on URL `u`; `sleepMs 30` is
the short inter-proxy delay; `backoff i d` is the inter-attempt wait after
failed attempt `i`, recorded with its pre-jitter base delay `d` (the actual
sleep is `jitter(d)`, a random quantity abstracted away). -/
inductive FetchEv where
  | tryFetch (i j : Nat) (u : Str)
  | sleepMs (n : Nat)
  | backoff (i : Nat) (d : ℚ)
deriving DecidableEq, Repr

/-- A fetch oracle: outcome of the fetch performed at (attempt, try index).
`none` models any `fetchOnce` failure (non-2xx status, network error, or
timeout abort), which the source catches. -/
abbrev FetchOracle := Nat → Nat → Option FetchOk

/-- Inner proxy loop of one attempt: `for (const p of proxies)` with
`await sleep(30)` before each try, returning at the first success and
swallowing every failure. -/
def runProxies (row : Nat → Option FetchOk) (i : Nat) :
    List (Nat × Str) → List FetchEv × Option FetchOk
  | [] => ([], none)
  | (j, p) :: rest =>
    match row j with
    | some r => ([.sleepMs 30, .tryFetch i j p], some r)
    | none =>
      let q := runProxies row i rest
      (.sleepMs 30 :: .tryFetch i j p :: q.1, q.2)

/-- One attempt body of `fetchWithRetries`: the direct `fetchOnce` try,
followed (on its failure) by the proxy loop. -/
def attemptStep (oracle : FetchOracle) (url : Str) (i : Nat) :
    List FetchEv × Option FetchOk :=
  match oracle i 0 with
  | some r => ([.tryFetch i 0 url], some r)
  | none =>
    let q := runProxies (oracle i) i (List.enumFrom 1 (buildProxyUrls url))
    (.tryFetch i 0 url :: q.1, q.2)

/-- The `for (let i = 0; i < attempts; i++)` loop of `fetchWithRetries`:
one attempt (direct try, then the proxies), then (except after the last
attempt) a jittered backoff with `delay *= 1.8`.  Falling out of the loop
throws `Error("Exhausted retries")`, modelled as `Except.error`.
Structural recursion on the number of remaining attempts. -/
def fetchLoop (oracle : FetchOracle) (url : Str) :
    Nat → Nat → ℚ → List FetchEv × Except Str FetchOk
  | _, 0, _ => ([], .error (str "Exhausted retries"))
  | i, rem + 1, d =>
    match attemptStep oracle url i with
    | (evs, some r) => (evs, .ok r)
    | (evs, none) =>
      if rem = 0 then (evs, .error (str "Exhausted retries"))
      else
        let q := fetchLoop oracle url (i + 1) rem (d * (9 / 5))
        (evs ++ .backoff i d :: q.1, q.2)

/-- Model of `fetchWithRetries(url, { attempts, timeoutMs })`: the event
trace and the outcome (`.ok` = returned FetchOk, `.error` = thrown
exception).  The initial backoff base delay is 600 ms and grows by the
factor 1.8 = 9/5. -/
def fetchWithRetries (oracle : FetchOracle) (url : Str) (attempts : Nat) :
    List FetchEv × Except Str FetchOk :=
  fetchLoop oracle url 0 attempts 600

/- Specification-side closed forms used to state the C5 trace theorem. -/

/-- First try index (0..5) of an attempt row that succeeds. -/
def rowHit (row : Nat → Option FetchOk) : Option Nat :=
  if (row 0).isSome then some 0
  else if (row 1).isSome then some 1
  else if (row 2).isSome then some 2
  else if (row 3).isSome then some 3
  else if (row 4).isSome then some 4
  else if (row 5).isSome then some 5
  else none

/-- First (attempt, try) pair at which the oracle succeeds, searching
attempts `i, i+1, …, i+rem-1` in order. -/
def firstHitIn (oracle : FetchOracle) (i rem : Nat) : Option (Nat × Nat) :=
  (List.range' i rem).findSome? (fun a => (rowHit (oracle a)).map (fun j => (a, j)))

/-- Events of attempt `i` truncated at try `j` inclusive: the direct try,
then each proxy up to `j` preceded by the 30 ms sleep. -/
def attemptEvs (url : Str) (i j : Nat) : List FetchEv :=
  .tryFetch i 0 url ::
    ((List.enumFrom 1 (buildProxyUrls url)).take j).flatMap
      (fun p => [.sleepMs 30, .tryFetch i p.1 p.2])

/-- Base backoff delay after attempt `i`: 600 · (9/5)^i. -/
def delayAt (i : Nat) : ℚ := 600 * (9 / 5) ^ i

/-- Result value dictated by the oracle at a hit position. -/
def resAt (oracle : FetchOracle) (a j : Nat) : Except Str FetchOk :=
  match oracle a j with
  | some r => .ok r
  | none => .error (str "Exhausted retries")

/-- Closed-form expected behaviour of `fetchWithRetries` (the C5 statement):
all attempts before the first hit run in full (direct try, the five proxies
once each in order with a 30 ms sleep before each, then a geometric
backoff); the hitting attempt is truncated at the hit; with no hit within
`attempts` attempts, every attempt runs in full, backoffs separate
consecutive attempts, and the run ends in the thrown exhaustion error. -/
def expectedRun (oracle : FetchOracle) (url : Str) (attempts : Nat) :
    List FetchEv × Except Str FetchOk :=
  match firstHitIn oracle 0 attempts with
  | some (a, j) =>
    ((List.range a).flatMap (fun k => attemptEvs url k 5 ++ [.backoff k (delayAt k)]) ++
      attemptEvs url a j, resAt oracle a j)
  | none =>
    ((List.range attempts).flatMap (fun k =>
      attemptEvs url k 5 ++
        if k + 1 < attempts then [.backoff k (delayAt k)] else []),
     .error (str "Exhausted retries"))

/- ───────────────────────── per-host limiter ───────────────────────── -/

/-- State of `createPerHostLimiter`'s closure: the `active` per-host
counters (the JS `Map`, absent keys reading 0) and the FIFO `queue` of
waiting jobs, recorded by their host strings. -/
structure HLState where
  act : Str → Nat
  queue : List Str

/-- Limiter state at module evaluation: empty map, empty queue. -/
def initHL : HLState := { act := fun _ => 0, queue := [] }

/-- The scan of `next()`: find the first queued job whose host is below the
cap and splice it out, returning its host and the remaining queue. -/
def findAdmit (M : Nat) (act : Str → Nat) : List Str → Option (Str × List Str)
  | [] => none
  | h :: rest =>
    if act h < M then some (h, rest)
    else
      match findAdmit M act rest with
      | some (h', rest') => some (h', h :: rest')
      | none => none

/-- Model of one `next()` call: admit at most one admissible queued job
(the JS loop `break`s after starting one), incrementing its host counter. -/
def pump (M : Nat) (s : HLState) : HLState :=
  match findAdmit M s.act s.queue with
  | none => s
  | some (h, q') =>
    { act := fun h' => if h' = h then s.act h' + 1 else s.act h', queue := q' }

/-- The settle decrement `active.set(host, (active.get(host) || 1) - 1)`,
including the JS `|| 1` guard for a falsy (0 / absent) count. -/
def settleDec (act : Str → Nat) (h : Str) : Str → Nat :=
  fun h' => if h' = h then (if act h = 0 then 1 else act h) - 1 else act h'

/-- Transitions of the per-host limiter with cap `M`.
`schedule h` models the returned closure: push the job and run `next()`.
`settle h` models a started job's promise settling (success or exception):
decrement the host counter and run `next()`; it requires a running job for
`h` (`0 < act h`), since the decrement handler is attached to exactly the
jobs `next()` started. -/
inductive HLStep (M : Nat) : HLState → HLState → Prop
  | schedule (h : Str) (s : HLState) :
      HLStep M s (pump M { s with queue := s.queue ++ [h] })
  | settle (h : Str) (s : HLState) (hrun : 0 < s.act h) :
      HLStep M s (pump M { s with act := settleDec s.act h })

/-- Limiter states reachable from the initial state. -/
def HLReachable (M : Nat) (s : HLState) : Prop :=
  Relation.ReflTransGen (HLStep M) initHL s

/- ───────────────────────── archive assembly (POST) ───────────────────────── -/

/-- The fixed 1×1 transparent PNG fallback (`FALLBACK_PNG`), decoded from
the base64 literal in the source. -/
def FALLBACK_PNG : List Nat :=
  [137, 80, 78, 71, 13, 10, 26, 10, 0, 0, 0, 13, 73, 72, 68, 82,
   0, 0, 0, 1, 0, 0, 0, 1, 8, 4, 0, 0, 0, 181, 28, 12,
   2, 0, 0, 0, 11, 73, 68, 65, 84, 120, 218, 99, 252, 95, 15, 0,
   2, 131, 1, 128, 109, 166, 242, 228, 0, 0, 0, 0, 73, 69, 78, 68,
   174, 66, 96, 130]

/-- Data of one ZIP entry.  `img b` is an entry written from the item loop
(real fetched bytes, or `FALLBACK_PNG` for a placeholder); `txt s` is a
text entry (`FAILED.txt` diagnostic or `ERROR.txt` note).  JSZip stores raw
bytes either way; the constructor records which write produced the entry. -/
inductive ZData where
  | img (b : List Nat)
  | txt (s : Str)
deriving DecidableEq, Repr

/-- Model of `zip.file(name, data)`: JSZip keys entries by exact name and
replaces an existing entry in place, otherwise appends. -/
def zipFile (entries : List (Str × ZData)) (name : Str) (d : ZData) :
    List (Str × ZData) :=
  if entries.any (fun e => e.1 = name) then
    entries.map (fun e => if e.1 = name then (name, d) else e)
  else entries ++ [(name, d)]

/-- One `{ url, filename? }` item of the request body.  `none` models an
absent field; the JS falsy test also treats `""` as absent, which
`jsTruthy` / `getOr` reproduce. -/
structure Item where
  url : Option Str
  filename : Option Str

/-- JS truthiness of an optional string (empty string is falsy). -/
def jsTruthy (o : Option Str) : Option Str :=
  match o with
  | some s => if s = [] then none else some s
  | none => none

/-- JS `a || b` for an optional string default. -/
def getOr (o : Option Str) (d : Str) : Str :=
  match jsTruthy o with
  | some s => s
  | none => d

/-- One failure record `{ index, url, error? }`. -/
structure FailureRec where
  index : Nat
  url : Str
  error : Option Str
deriving DecidableEq, Repr

/-- Assembly state threaded through the item loop: the used-name set, the
ZIP entries, the failure records, and a ghost list (most recent first) of
the names produced by filename resolution, recorded purely for
specification. -/
structure AsmState where
  used : List Str
  entries : List (Str × ZData)
  failures : List FailureRec
  namesRev : List Str

/-- Assembly state before any item is processed. -/
def initAsm : AsmState :=
  { used := [], entries := [], failures := [], namesRev := [] }

/-- Default base name `image_${idx + 1}`. -/
def defaultName (idx : Nat) : Str := str "image_" ++ natToStr (idx + 1)

/-- Per-item outcome oracle for the archive builder: `.ok` is a successful
`fetchWithRetries` (through the limiters), `.error msg` any thrown error
caught by the item-level `catch` (message as stringified). -/
abbrev ItemOracle := Nat → Except Str FetchOk

/-- Processing of one item of `files.map((item, idx) => …)`: the missing-url
placeholder branch, the success branch, and the catch-all placeholder
branch, exactly as in the source. -/
def processItem (res : Except Str FetchOk) (idx : Nat) (item : Item)
    (st : AsmState) : AsmState :=
  match jsTruthy item.url with
  | none =>
    let baseName := sanitize (getOr item.filename (defaultName idx))
    let name := if hasExt baseName then baseName else baseName ++ str ".png"
    let u := ensureUnique name st.used
    { used := u.2, entries := zipFile st.entries u.1 (.img FALLBACK_PNG),
      failures := st.failures ++ [⟨idx, str "(missing)", none⟩],
      namesRev := u.1 :: st.namesRev }
  | some rawUrl =>
    match res with
    | .ok out =>
      let provided := sanitize (getOr item.filename (defaultName idx))
      let withExt := if hasExt provided then provided
        else provided ++ inferExt out.contentType rawUrl
      let u := ensureUnique withExt st.used
      { used := u.2, entries := zipFile st.entries u.1 (.img out.bytes),
        failures := st.failures, namesRev := u.1 :: st.namesRev }
    | .error msg =>
      let provided := sanitize (getOr item.filename (defaultName idx))
      let withExt := if hasExt provided then provided else provided ++ str ".png"
      let u := ensureUnique withExt st.used
      { used := u.2, entries := zipFile st.entries u.1 (.img FALLBACK_PNG),
        failures := st.failures ++ [⟨idx, rawUrl, some msg⟩],
        namesRev := u.1 :: st.namesRev }

/-- The item loop over the request, sequentialised in input order (see the
header note: every property proved below depends only on per-item
outcomes). -/
def buildState (oracle : ItemOracle) (files : List Item) : AsmState :=
  (files.enum).foldl (fun st p => processItem (oracle p.1) p.1 p.2 st) initAsm

/-- Join with newline, modelling `lines.join("\n")`. -/
def joinNL (ls : List Str) : Str := List.intercalate (str "\n") ls

/-- The diagnostic `FAILED.txt` body built from the failure records. -/
def diagText (failures : List FailureRec) : Str :=
  joinNL
    ([str "Some images could not be fetched after multiple retries.",
      str "Placeholders (1x1 transparent PNG) were added so nothing is missing.",
      str "",
      str "Failed entries:"] ++
     failures.map (fun f =>
       '#' :: natToStr (f.index + 1) ++ str "  " ++ f.url ++
         match f.error with
         | some e => str "  " ++ ['—'] ++ str "  " ++ e
         | none => []))

/-- Entries of the finished archive: the item-loop entries, plus the
`FAILED.txt` diagnostic written (unconditionally under that fixed name)
when any failure was recorded. -/
def buildArchive (oracle : ItemOracle) (files : List Item) : List (Str × ZData) :=
  let st := buildState oracle files
  if st.failures = [] then st.entries
  else zipFile st.entries (str "FAILED.txt") (.txt (diagText st.failures))

/-- Count of image entries (entries written by the item loop that survived
into the final archive). -/
def countImg (entries : List (Str × ZData)) : Nat :=
  entries.countP (fun e => match e.2 with | .img _ => true | .txt _ => false)

/-- Count of text entries. -/
def countTxt (entries : List (Str × ZData)) : Nat :=
  entries.countP (fun e => match e.2 with | .img _ => false | .txt _ => true)

/- ───────────────────────── HTTP handlers ───────────────────────── -/

/-- Body of an HTTP response as produced by the handlers. -/
inductive RespBody where
  | text (s : Str)
  | bytes (b : List Nat)
  | zipStream (entries : List (Str × ZData))
deriving Repr

/-- Observable part of a `Response`. -/
structure HttpResp where
  status : Nat
  body : RespBody
  contentType : Option Str
deriving Repr

/-- Model of the best-effort `GET` handler (first route variant): missing
`url` → 400 before any fetch; otherwise `fetchWithRetries` with 6 attempts,
a caught failure degrading to the fallback PNG with status 200.  The second
component is the fetch event trace (empty = no fetch attempted). -/
def GET (urlParam : Option Str) (oracle : FetchOracle) : HttpResp × List FetchEv :=
  match jsTruthy urlParam with
  | none => ({ status := 400, body := .text (str "Missing url"), contentType := none }, [])
  | some url =>
    let run := fetchWithRetries oracle url 6
    match run.2 with
    | .ok out =>
      ({ status := 200, body := .bytes out.bytes,
         contentType := some (if out.contentType = [] then
           str "application/octet-stream" else out.contentType) }, run.1)
    | .error _ =>
      ({ status := 200, body := .bytes FALLBACK_PNG,
         contentType := some (str "image/png") }, run.1)

/-- Upstream outcome for the strict passthrough `GET` variant: a response
with its HTTP status, content-type header and body, or a network error
(rejected `fetch`). -/
inductive Upstream where
  | resp (status : Nat) (ct : Option Str) (body : List Nat)
  | netError (msg : Str)

/-- `res.ok`: status in the 2xx range. -/
def statusOk (s : Nat) : Bool := 200 ≤ s && s ≤ 299

/-- Model of the strict passthrough `GET` variant (second route file): a
non-ok upstream status is passed through, a network error becomes 502, and
a missing `url` is a 400 before any fetch (the Bool records whether a fetch
was performed). -/
def GETstrict (urlParam : Option Str) (up : Upstream) : HttpResp × Bool :=
  match jsTruthy urlParam with
  | none => ({ status := 400, body := .text (str "Missing url"), contentType := none }, false)
  | some _ =>
    match up with
    | .netError _ =>
      ({ status := 502, body := .text (str "Fetch failed"), contentType := none }, true)
    | .resp s ct body =>
      if statusOk s then
        ({ status := 200, body := .bytes body,
           contentType := some (match ct with
             | some c => if c = [] then str "application/octet-stream" else c
             | none => str "application/octet-stream") }, true)
      else
        ({ status := s, body := .text (str "Upstream error"), contentType := none }, true)

/-- The `ERROR.txt` note of the fatal-error wrapper archive. -/
def errNote (msg : Str) : Str := str "Server error: " ++ msg

/-- Model of the `POST` handler.  `filesField` is `body.files` when it is an
array (`none` covers an absent or non-array field, which the source maps to
`[]`).  `fatal` models an exception thrown inside the `try` block after the
empty-list check (e.g. the jszip import or stream setup failing); the outer
`catch` then still answers 200 with a minimal valid ZIP containing an
`ERROR.txt` note. -/
def POST (filesField : Option (List Item)) (oracle : ItemOracle)
    (fatal : Option Str) : HttpResp :=
  let files := filesField.getD []
  if files.isEmpty then
    { status := 400, body := .text (str "No files"), contentType := none }
  else
    match fatal with
    | some msg =>
      { status := 200, body := .zipStream [(str "ERROR.txt", .txt (errNote msg))],
        contentType := some (str "application/zip") }
    | none =>
      { status := 200, body := .zipStream (buildArchive oracle files),
        contentType := some (str "application/zip") }

/-! ## Lemmas about decimal suffixes and candidate names -/

theorem valOf_append (l : Str) (c : Char) :
    valOf (l ++ [c]) = 10 * valOf l + (c.toNat - 48) := by
  simp [valOf, List.foldl_append]

theorem valOf_natToStrAux :
    ∀ fuel n, n < fuel → valOf (natToStrAux fuel n) = n := by
  intro fuel
  induction fuel with
  | zero => intro n h; omega
  | succ fuel ih =>
    intro n h
    by_cases h10 : n < 10
    · simp [natToStrAux, h10, valOf, digitChar]
      have : (Char.ofNat (48 + n)).toNat = 48 + n := by
        interval_cases n <;> decide
      omega
    · have hdiv : n / 10 < fuel := by
        have : n / 10 < n := Nat.div_lt_self (by omega) (by norm_num)
        omega
      simp only [natToStrAux, h10, if_false, valOf_append]
      rw [ih (n / 10) hdiv]
      have : (digitChar (n % 10)).toNat = 48 + n % 10 := by
        have h9 : n % 10 < 10 := Nat.mod_lt _ (by norm_num)
        simp only [digitChar]
        interval_cases h : n % 10 <;> decide
      omega

theorem valOf_natToStr (n : Nat) : valOf (natToStr n) = n :=
  valOf_natToStrAux (n + 1) n (by omega)

theorem natToStr_inj {m n : Nat} (h : natToStr m = natToStr n) : m = n := by
  have := congrArg valOf h
  rwa [valOf_natToStr, valOf_natToStr] at this

theorem natToStrAux_ne_nil (fuel n : Nat) (h : 0 < fuel) :
    natToStrAux fuel n ≠ [] := by
  cases fuel with
  | zero => omega
  | succ fuel =>
    by_cases h10 : n < 10 <;> simp [natToStrAux, h10]

theorem natToStr_ne_nil (n : Nat) : natToStr n ≠ [] :=
  natToStrAux_ne_nil _ _ (by omega)

theorem natToStrAux_digits :
    ∀ fuel n c, c ∈ natToStrAux fuel n → ∃ d, d < 10 ∧ c = digitChar d := by
  intro fuel
  induction fuel with
  | zero => intro n c h; simp [natToStrAux] at h
  | succ fuel ih =>
    intro n c h
    by_cases h10 : n < 10
    · simp [natToStrAux, h10] at h
      exact ⟨n, h10, h⟩
    · simp only [natToStrAux, h10, if_false, List.mem_append] at h
      rcases h with h | h
      · exact ih _ _ h
      · simp at h
        exact ⟨n % 10, Nat.mod_lt _ (by norm_num), h⟩

theorem natToStr_digits {n : Nat} {c : Char} (h : c ∈ natToStr n) :
    ∃ d, d < 10 ∧ c = digitChar d :=
  natToStrAux_digits _ _ _ h

theorem digitChar_ne_dot {d : Nat} (h : d < 10) : digitChar d ≠ '.' := by
  interval_cases d <;> decide

theorem digitChar_toLower {d : Nat} (h : d < 10) :
    Char.toLower (digitChar d) = digitChar d := by
  interval_cases d <;> decide

theorem map_self {α : Type} (f : α → α) :
    ∀ l : List α, (∀ c ∈ l, f c = c) → l.map f = l := by
  intro l
  induction l with
  | nil => intro _; rfl
  | cons c rest ih =>
    intro h
    simp only [List.map_cons, h c (by simp)]
    rw [ih (fun x hx => h x (by simp [hx]))]

theorem toLowerStr_natToStr (n : Nat) : toLowerStr (natToStr n) = natToStr n := by
  apply map_self
  intro c hc
  obtain ⟨d, hd, rfl⟩ := natToStr_digits hc
  exact digitChar_toLower hd

theorem breakAtDotRev_append (l : Str) :
    (breakAtDotRev l).1 ++ (breakAtDotRev l).2 = l := by
  induction l with
  | nil => rfl
  | cons c rest ih =>
    by_cases hc : c = '.'
    · simp [breakAtDotRev, hc]
    · simp only [breakAtDotRev, hc, if_false]
      simpa using ih

theorem breakAtDotRev_fst_no_dot (l : Str) :
    ∀ c ∈ (breakAtDotRev l).1, c ≠ '.' := by
  induction l with
  | nil => intro c h; simp [breakAtDotRev] at h
  | cons a rest ih =>
    intro c h
    by_cases ha : a = '.'
    · simp [breakAtDotRev, ha] at h
    · simp only [breakAtDotRev, ha, if_false] at h
      simp at h
      rcases h with rfl | h
      · exact ha
      · exact ih c h

theorem breakAtDotRev_snd_shape (l : Str) :
    (breakAtDotRev l).2 = [] ∨ ∃ t, (breakAtDotRev l).2 = '.' :: t := by
  induction l with
  | nil => left; rfl
  | cons c rest ih =>
    by_cases hc : c = '.'
    · right; exact ⟨rest, by simp [breakAtDotRev, hc]⟩
    · simpa [breakAtDotRev, hc] using ih

theorem splitAtLastDot_eq (name : Str) :
    splitAtLastDot name = (name, []) ∨
    ∃ b t, splitAtLastDot name = (b, '.' :: t) ∧ b ≠ [] ∧
      b ++ '.' :: t = name ∧ ∀ c ∈ t, c ≠ '.' := by
  have hb := breakAtDotRev_append name.reverse
  have hs := breakAtDotRev_snd_shape name.reverse
  have hnd := breakAtDotRev_fst_no_dot name.reverse
  rcases hp : breakAtDotRev name.reverse with ⟨f, s⟩
  rw [hp] at hb hs hnd
  simp only [] at hb hs hnd
  cases s with
  | nil => left; simp [splitAtLastDot, hp]
  | cons c s' =>
    cases s' with
    | nil => left; simp [splitAtLastDot, hp]
    | cons d rt =>
      right
      have hc : c = '.' := by
        rcases hs with hs | ⟨t, hs⟩
        · cases hs
        · exact (List.cons.inj hs).1
      subst hc
      refine ⟨(d :: rt).reverse, f.reverse, ?_, by simp, ?_, ?_⟩
      · simp [splitAtLastDot, hp]
      · have h3 := congrArg List.reverse hb
        rw [List.reverse_reverse] at h3
        rw [← h3]
        simp
      · intro c hc
        exact hnd c (by simpa using hc)

theorem splitAtLastDot_append (name : Str) :
    (splitAtLastDot name).1 ++ (splitAtLastDot name).2 = name := by
  rcases splitAtLastDot_eq name with h | ⟨b, t, h, _, hbt, _⟩
  · rw [h]; simp
  · rw [h]; simpa using hbt

theorem candidateAt_zero (name : Str) : candidateAt name 0 = name := by
  show (splitAtLastDot name).1 ++ (splitAtLastDot name).2 = name
  exact splitAtLastDot_append name

theorem candidateAt_succ (name : Str) (j : Nat) :
    candidateAt name (j + 1) =
      (splitAtLastDot name).1 ++ '_' :: natToStr (j + 2) ++ (splitAtLastDot name).2 := rfl

theorem toLowerStr_append (a b : Str) :
    toLowerStr (a ++ b) = toLowerStr a ++ toLowerStr b := by
  simp [toLowerStr]

theorem toLowerStr_length (s : Str) : (toLowerStr s).length = s.length := by
  simp [toLowerStr]

theorem toLowerStr_candidate_succ (name : Str) (j : Nat) :
    toLowerStr (candidateAt name (j + 1)) =
      toLowerStr (splitAtLastDot name).1 ++
        '_' :: (natToStr (j + 2) ++ toLowerStr (splitAtLastDot name).2) := by
  rw [candidateAt_succ]
  simp only [toLowerStr, List.map_append, List.map_cons]
  have h1 : Char.toLower '_' = '_' := by decide
  have h2 := toLowerStr_natToStr (j + 2)
  simp only [toLowerStr] at h2
  rw [h1, h2]
  simp [List.append_assoc]

theorem candidate_lower_inj (name : Str) :
    ∀ {k k' : Nat},
      toLowerStr (candidateAt name k) = toLowerStr (candidateAt name k') → k = k' := by
  have hlen : (splitAtLastDot name).1.length + (splitAtLastDot name).2.length =
      name.length := by
    have := congrArg List.length (splitAtLastDot_append name)
    simpa using this
  intro k k' h
  match k, k' with
  | 0, 0 => rfl
  | 0, j + 1 =>
    exfalso
    have := congrArg List.length h
    rw [candidateAt_zero, toLowerStr_candidate_succ] at this
    simp [toLowerStr_length] at this
    have hne := natToStr_ne_nil (j + 2)
    have : 0 < (natToStr (j + 2)).length := List.length_pos.mpr hne
    omega
  | j + 1, 0 =>
    exfalso
    have := congrArg List.length h
    rw [candidateAt_zero, toLowerStr_candidate_succ] at this
    simp [toLowerStr_length] at this
    have hne := natToStr_ne_nil (j + 2)
    have : 0 < (natToStr (j + 2)).length := List.length_pos.mpr hne
    omega
  | j + 1, j' + 1 =>
    rw [toLowerStr_candidate_succ, toLowerStr_candidate_succ] at h
    have h2 := List.append_cancel_left h
    have h3 := (List.cons.inj h2).2
    have h4 := List.append_cancel_right h3
    have := natToStr_inj h4
    omega

theorem exists_free_candidate (name : Str) (used : List Str) :
    ∃ k, k ≤ used.length ∧ toLowerStr (candidateAt name k) ∉ used := by
  by_contra hall
  push_neg at hall
  have hmem : ∀ i : Fin (used.length + 1),
      toLowerStr (candidateAt name i.val) ∈ used.toFinset := by
    intro i
    rw [List.mem_toFinset]
    exact hall i.val (by omega)
  have hinj : Set.InjOn (fun i : Fin (used.length + 1) =>
      toLowerStr (candidateAt name i.val)) ↑(Finset.univ : Finset (Fin (used.length + 1))) := by
    intro a _ b _ hab
    exact Fin.ext (candidate_lower_inj name hab)
  have hcard := Finset.card_le_card_of_injOn _ (fun a _ => hmem a) hinj
  rw [Finset.card_univ, Fintype.card_fin] at hcard
  have := used.toFinset_card_le
  omega

theorem findFree_spec (name : Str) (used : List Str) :
    ∀ fuel k, (∃ j, j < fuel ∧ toLowerStr (candidateAt name (k + j)) ∉ used) →
      toLowerStr (candidateAt name (findFree name used k fuel)) ∉ used ∧
      k ≤ findFree name used k fuel ∧
      ∀ m, k ≤ m → m < findFree name used k fuel →
        toLowerStr (candidateAt name m) ∈ used := by
  intro fuel
  induction fuel with
  | zero => intro k h; omega
  | succ fuel ih =>
    intro k h
    by_cases hk : toLowerStr (candidateAt name k) ∈ used
    · have hx : ∃ j, j < fuel ∧ toLowerStr (candidateAt name (k + 1 + j)) ∉ used := by
        obtain ⟨j, hj, hfree⟩ := h
        match j, hfree with
        | 0, hfree => exact absurd hk hfree
        | j + 1, hfree =>
          exact ⟨j, by omega, by rw [show k + 1 + j = k + (j + 1) by omega]; exact hfree⟩
      obtain ⟨hfree, hle, hmin⟩ := ih (k + 1) hx
      have heq : findFree name used k (fuel + 1) = findFree name used (k + 1) fuel := by
        simp [findFree, hk]
      refine ⟨by rw [heq]; exact hfree, by omega, ?_⟩
      intro m hm1 hm2
      rw [heq] at hm2
      rcases Nat.eq_or_lt_of_le hm1 with rfl | hlt
      · exact hk
      · exact hmin m (by omega) hm2
    · have heq : findFree name used k (fuel + 1) = k := by
        simp [findFree, hk]
      rw [heq]
      exact ⟨hk, le_refl _, fun m h1 h2 => by omega⟩

/-- C9 core: `ensureUnique` returns the first loop candidate whose
lower-cased form is free, and registers exactly that lower-cased form. -/
theorem ensureUnique_spec (name : Str) (used : List Str) :
    toLowerStr (ensureUnique name used).1 ∉ used ∧
    (ensureUnique name used).2 = toLowerStr (ensureUnique name used).1 :: used ∧
    ∃ k, (ensureUnique name used).1 = candidateAt name k ∧
      ∀ j, j < k → toLowerStr (candidateAt name j) ∈ used := by
  obtain ⟨k0, hk0, hfree0⟩ := exists_free_candidate name used
  have hex : ∃ j, j < used.length + 1 ∧
      toLowerStr (candidateAt name (0 + j)) ∉ used := by
    exact ⟨k0, by omega, by simpa using hfree0⟩
  obtain ⟨hfree, _, hmin⟩ := findFree_spec name used (used.length + 1) 0 hex
  refine ⟨hfree, rfl, findFree name used 0 (used.length + 1), rfl, ?_⟩
  intro j hj
  exact hmin j (by omega) hj

/-! ## Extension-carrying names -/

theorem hasDot_append (xs ys : Str) :
    hasDot (xs ++ ys) = (hasDot xs || hasDot ys) := by
  induction xs with
  | nil => simp [hasDot]
  | cons c rest ih => simp [hasDot, ih, Bool.or_assoc]

/-- A well-formed extension: a dot followed by a nonempty dot-free suffix. -/
def GoodExt (e : Str) : Prop :=
  ∃ t, e = '.' :: t ∧ t ≠ [] ∧ ∀ c ∈ t, c ≠ '.'

theorem hasExt_append_good (s e : Str) (h : GoodExt e) :
    hasExt (s ++ e) = true := by
  obtain ⟨t, rfl, ht, hnd⟩ := h
  have htr : t.reverse ≠ [] := by simpa using ht
  rcases hc : t.reverse with _ | ⟨c0, t'⟩
  · exact absurd hc htr
  · have hc0 : c0 ∈ t := by
      have : c0 ∈ t.reverse := by rw [hc]; simp
      simpa using this
    have hne := hnd c0 hc0
    simp [hasExt, List.reverse_append, hc, revHasExt, hne, hasDot_append, hasDot]

theorem goodExt_extNames : ∀ e ∈ extNames, GoodExt ('.' :: e) := by
  intro e he
  have h : ∀ e ∈ extNames, e ≠ ([] : Str) ∧ ∀ c ∈ e, c ≠ '.' := by decide
  exact ⟨e, rfl, (h e he).1, (h e he).2⟩

theorem inferExt_form (ct url : Str) :
    ∃ e ∈ extNames, inferExt ct url = '.' :: e := by
  have hx : ∀ x, urlExtMatch url = some x → ∃ e ∈ extNames, x = '.' :: e := by
    intro x heq
    obtain ⟨e', hfind, rfl⟩ := Option.map_eq_some'.mp heq
    exact ⟨e', List.mem_of_find?_eq_some hfind, rfl⟩
  unfold inferExt
  repeat' split
  all_goals first
    | exact ⟨str "png", by decide, rfl⟩
    | exact ⟨str "jpg", by decide, rfl⟩
    | exact ⟨str "gif", by decide, rfl⟩
    | exact ⟨str "bmp", by decide, rfl⟩
    | exact ⟨str "webp", by decide, rfl⟩
    | exact ⟨str "svg", by decide, rfl⟩
    | exact ⟨str "avif", by decide, rfl⟩
    | exact ⟨str "tiff", by decide, rfl⟩
    | exact hx _ (by assumption)

theorem good_inferExt (ct url : Str) : GoodExt (inferExt ct url) := by
  obtain ⟨e, he, heq⟩ := inferExt_form ct url
  rw [heq]
  exact goodExt_extNames e he

theorem good_png : GoodExt (str ".png") :=
  ⟨str "png", rfl, by decide, by decide⟩

theorem hasExt_orAppend (p e : Str) (h : GoodExt e) :
    hasExt (if hasExt p then p else p ++ e) = true := by
  split
  next hp => exact hp
  next => exact hasExt_append_good p e h

theorem hasDot_reverse_of_hasExt {name : Str} (h : hasExt name = true) :
    hasDot name.reverse = true := by
  unfold hasExt at h
  rcases hrev : name.reverse with _ | ⟨c, r⟩
  · rw [hrev] at h; simp [revHasExt] at h
  · rw [hrev] at h
    simp [revHasExt] at h
    simp [hasDot, h.2]

theorem hasExt_candidateAt (name : Str) (k : Nat) (h : hasExt name = true) :
    hasExt (candidateAt name k) = true := by
  match k with
  | 0 => rw [candidateAt_zero]; exact h
  | j + 1 =>
    rcases splitAtLastDot_eq name with heq | ⟨b, t, heq, hb, hbt, hnd⟩
    · have hcand : candidateAt name (j + 1) = name ++ '_' :: natToStr (j + 2) := by
        rw [candidateAt_succ, heq]
        simp
      rw [hcand]
      have hnr : (natToStr (j + 2)).reverse ≠ [] := by
        simpa using natToStr_ne_nil (j + 2)
      rcases hc : (natToStr (j + 2)).reverse with _ | ⟨c0, l'⟩
      · exact absurd hc hnr
      · have hc0 : c0 ∈ natToStr (j + 2) := by
          have : c0 ∈ (natToStr (j + 2)).reverse := by rw [hc]; simp
          simpa using this
        obtain ⟨d, hd, rfl⟩ := natToStr_digits hc0
        have hne := digitChar_ne_dot hd
        have hdot := hasDot_reverse_of_hasExt h
        simp [hasExt, List.reverse_append, hc, revHasExt, hne, hasDot_append, hasDot, hdot]
    · have ht : t ≠ [] := by
        intro hteq
        subst hteq
        have hrev : name.reverse = '.' :: b.reverse := by
          rw [← hbt]; simp
        unfold hasExt at h
        rw [hrev] at h
        simp [revHasExt] at h
      have hcand : candidateAt name (j + 1) =
          (b ++ '_' :: natToStr (j + 2)) ++ '.' :: t := by
        rw [candidateAt_succ, heq]
      rw [hcand]
      exact hasExt_append_good _ _ ⟨t, rfl, ht, hnd⟩

theorem hasExt_ensureUnique (name : Str) (used : List Str)
    (h : hasExt name = true) : hasExt (ensureUnique name used).1 = true :=
  hasExt_candidateAt name _ h

/-! ## Name resolution across one archive-building run -/

/-- Invariant of the assembly state: the used set is exactly the lower-cased
resolved names, it has no duplicates (case-insensitive uniqueness), and
every resolved name carries an extension. -/
def AsmInv (st : AsmState) : Prop :=
  st.used = st.namesRev.map toLowerStr ∧ st.used.Nodup ∧
    ∀ n ∈ st.namesRev, hasExt n = true

theorem asmStep (name : Str) (st : AsmState)
    (entries' : List (Str × ZData)) (failures' : List FailureRec)
    (hext : hasExt name = true) (h : AsmInv st) :
    AsmInv { used := (ensureUnique name st.used).2, entries := entries',
             failures := failures',
             namesRev := (ensureUnique name st.used).1 :: st.namesRev } := by
  obtain ⟨hu, hnd, hall⟩ := h
  obtain ⟨hfree, hreg, -⟩ := ensureUnique_spec name st.used
  refine ⟨?_, ?_, ?_⟩
  · rw [hreg, hu]
    simp
  · rw [hreg]
    exact List.nodup_cons.mpr ⟨hfree, hnd⟩
  · intro n hn
    rcases List.mem_cons.mp hn with rfl | hn
    · exact hasExt_ensureUnique name st.used hext
    · exact hall n hn

theorem processItem_inv (res : Except Str FetchOk) (idx : Nat) (item : Item)
    (st : AsmState) (h : AsmInv st) : AsmInv (processItem res idx item st) := by
  unfold processItem
  cases jsTruthy item.url with
  | none => exact asmStep _ st _ _ (hasExt_orAppend _ _ good_png) h
  | some rawUrl =>
    cases res with
    | ok out => exact asmStep _ st _ _ (hasExt_orAppend _ _ (good_inferExt _ _)) h
    | error msg => exact asmStep _ st _ _ (hasExt_orAppend _ _ good_png) h

theorem buildState_inv (oracle : ItemOracle) (files : List Item) :
    AsmInv (buildState oracle files) := by
  unfold buildState
  have hinit : AsmInv initAsm := ⟨rfl, List.nodup_nil, by simp [initAsm]⟩
  generalize initAsm = st0 at hinit ⊢
  induction files.enum generalizing st0 with
  | nil => exact hinit
  | cons p rest ih =>
    exact ih _ (processItem_inv (oracle p.1) p.1 p.2 st0 hinit)

/-! ## The fetchWithRetries trace -/

theorem delayAt_succ (i : Nat) : delayAt i * (9 / 5) = delayAt (i + 1) := by
  simp [delayAt, pow_succ]
  ring

theorem firstHitIn_zero (oracle : FetchOracle) (i : Nat) :
    firstHitIn oracle i 0 = none := rfl

theorem firstHitIn_succ (oracle : FetchOracle) (i rem : Nat) :
    firstHitIn oracle i (rem + 1) =
      match rowHit (oracle i) with
      | some j => some (i, j)
      | none => firstHitIn oracle (i + 1) rem := by
  unfold firstHitIn
  rw [List.range'_succ, List.findSome?_cons]
  cases rowHit (oracle i) <;> simp

theorem firstHitIn_ge (oracle : FetchOracle) :
    ∀ rem i a j, firstHitIn oracle i rem = some (a, j) → i ≤ a := by
  intro rem
  induction rem with
  | zero => intro i a j h; rw [firstHitIn_zero] at h; cases h
  | succ rem ih =>
    intro i a j h
    rw [firstHitIn_succ] at h
    rcases hr : rowHit (oracle i) with _ | j'
    · rw [hr] at h
      exact le_trans (by omega) (ih (i + 1) a j h)
    · rw [hr] at h
      simp at h
      omega

theorem fetchLoop_succ_hit {oracle : FetchOracle} {url : Str} {i : Nat}
    {evs : List FetchEv} {r : FetchOk} (rem : Nat) (d : ℚ)
    (h : attemptStep oracle url i = (evs, some r)) :
    fetchLoop oracle url i (rem + 1) d = (evs, .ok r) := by
  unfold fetchLoop
  rw [h]

theorem fetchLoop_succ_miss_last {oracle : FetchOracle} {url : Str} {i : Nat}
    {evs : List FetchEv} (d : ℚ)
    (h : attemptStep oracle url i = (evs, none)) :
    fetchLoop oracle url i 1 d = (evs, .error (str "Exhausted retries")) := by
  unfold fetchLoop
  rw [h]
  rfl

theorem fetchLoop_succ_miss {oracle : FetchOracle} {url : Str} {i : Nat}
    {evs : List FetchEv} (rem' : Nat) (d : ℚ)
    (h : attemptStep oracle url i = (evs, none)) :
    fetchLoop oracle url i (rem' + 1 + 1) d =
      (evs ++ .backoff i d :: (fetchLoop oracle url (i + 1) (rem' + 1) (d * (9 / 5))).1,
       (fetchLoop oracle url (i + 1) (rem' + 1) (d * (9 / 5))).2) := by
  unfold fetchLoop
  rw [h]
  rfl

theorem fetchLoop_eq (oracle : FetchOracle) (url : Str) :
    ∀ rem i, fetchLoop oracle url i rem (delayAt i) =
      match firstHitIn oracle i rem with
      | some (a, j) =>
        ((List.range' i (a - i)).flatMap
            (fun k => attemptEvs url k 5 ++ [FetchEv.backoff k (delayAt k)]) ++
          attemptEvs url a j, resAt oracle a j)
      | none =>
        ((List.range' i rem).flatMap (fun k =>
          attemptEvs url k 5 ++
            if k + 1 < i + rem then [FetchEv.backoff k (delayAt k)] else []),
         Except.error (str "Exhausted retries")) := by
  intro rem
  induction rem with
  | zero =>
    intro i
    rw [firstHitIn_zero]
    simp [fetchLoop]
  | succ rem ih =>
    intro i
    rw [firstHitIn_succ]
    rcases h0 : oracle i 0 with _ | r0
    case some =>
      have hrh : rowHit (oracle i) = some 0 := by simp [rowHit, h0]
      have hstep : attemptStep oracle url i = ([.tryFetch i 0 url], some r0) := by
        unfold attemptStep
        rw [h0]
      rw [fetchLoop_succ_hit rem (delayAt i) hstep, hrh]
      simp [attemptEvs, resAt, h0]
    case none =>
    rcases h1 : oracle i 1 with _ | r1
    case some =>
      have hrh : rowHit (oracle i) = some 1 := by simp [rowHit, h0, h1]
      have hstep : attemptStep oracle url i = (attemptEvs url i 1, some r1) := by
        unfold attemptStep
        rw [h0]
        simp [runProxies, buildProxyUrls, List.enumFrom, h1, attemptEvs]
      rw [fetchLoop_succ_hit rem (delayAt i) hstep, hrh]
      simp [resAt, h1]
    case none =>
    rcases h2 : oracle i 2 with _ | r2
    case some =>
      have hrh : rowHit (oracle i) = some 2 := by simp [rowHit, h0, h1, h2]
      have hstep : attemptStep oracle url i = (attemptEvs url i 2, some r2) := by
        unfold attemptStep
        rw [h0]
        simp [runProxies, buildProxyUrls, List.enumFrom, h1, h2, attemptEvs]
      rw [fetchLoop_succ_hit rem (delayAt i) hstep, hrh]
      simp [resAt, h2]
    case none =>
    rcases h3 : oracle i 3 with _ | r3
    case some =>
      have hrh : rowHit (oracle i) = some 3 := by simp [rowHit, h0, h1, h2, h3]
      have hstep : attemptStep oracle url i = (attemptEvs url i 3, some r3) := by
        unfold attemptStep
        rw [h0]
        simp [runProxies, buildProxyUrls, List.enumFrom, h1, h2, h3, attemptEvs]
      rw [fetchLoop_succ_hit rem (delayAt i) hstep, hrh]
      simp [resAt, h3]
    case none =>
    rcases h4 : oracle i 4 with _ | r4
    case some =>
      have hrh : rowHit (oracle i) = some 4 := by simp [rowHit, h0, h1, h2, h3, h4]
      have hstep : attemptStep oracle url i = (attemptEvs url i 4, some r4) := by
        unfold attemptStep
        rw [h0]
        simp [runProxies, buildProxyUrls, List.enumFrom, h1, h2, h3, h4, attemptEvs]
      rw [fetchLoop_succ_hit rem (delayAt i) hstep, hrh]
      simp [resAt, h4]
    case none =>
    rcases h5 : oracle i 5 with _ | r5
    case some =>
      have hrh : rowHit (oracle i) = some 5 := by
        simp [rowHit, h0, h1, h2, h3, h4, h5]
      have hstep : attemptStep oracle url i = (attemptEvs url i 5, some r5) := by
        unfold attemptStep
        rw [h0]
        simp [runProxies, buildProxyUrls, List.enumFrom, h1, h2, h3, h4, h5, attemptEvs]
      rw [fetchLoop_succ_hit rem (delayAt i) hstep, hrh]
      simp [resAt, h5]
    case none =>
      have hrh : rowHit (oracle i) = none := by
        simp [rowHit, h0, h1, h2, h3, h4, h5]
      have hstep : attemptStep oracle url i = (attemptEvs url i 5, none) := by
        unfold attemptStep
        rw [h0]
        simp [runProxies, buildProxyUrls, List.enumFrom, h1, h2, h3, h4, h5, attemptEvs]
      rw [hrh]
      cases rem with
      | zero =>
        rw [fetchLoop_succ_miss_last (delayAt i) hstep, firstHitIn_zero]
        simp [List.range'_succ]
      | succ rem' =>
        have hd := delayAt_succ i
        rw [fetchLoop_succ_miss rem' (delayAt i) hstep, hd, ih (i + 1)]
        rcases hfh : firstHitIn oracle (i + 1) (rem' + 1) with _ | ⟨a, j⟩
        · simp only []
          have hcond : i + 1 < i + (rem' + 1 + 1) := by omega
          have hcond' : i + 1 + (rem' + 1) = i + (rem' + 1 + 1) := by omega
          conv_rhs => rw [List.range'_succ]
          simp only [List.flatMap_cons, hcond', if_pos hcond]
          simp
        · have ha : i + 1 ≤ a := firstHitIn_ge oracle _ _ _ _ hfh
          simp only []
          have hsub : a - i = (a - (i + 1)) + 1 := by omega
          rw [hsub, List.range'_succ]
          simp only [List.flatMap_cons]
          simp

theorem fetchWithRetries_eq (oracle : FetchOracle) (url : Str) (attempts : Nat) :
    fetchWithRetries oracle url attempts = expectedRun oracle url attempts := by
  unfold fetchWithRetries expectedRun
  have h600 : (600 : ℚ) = delayAt 0 := by simp [delayAt]
  rw [h600, fetchLoop_eq]
  rcases hfh : firstHitIn oracle 0 attempts with _ | ⟨a, j⟩
  · simp [List.range_eq_range']
  · simp [List.range_eq_range']

theorem rowHit_isSome {row : Nat → Option FetchOk} {j : Nat}
    (h : rowHit row = some j) : (row j).isSome = true := by
  unfold rowHit at h
  repeat' split at h
  all_goals simp_all

theorem firstHitIn_hit (oracle : FetchOracle) :
    ∀ rem i a j, firstHitIn oracle i rem = some (a, j) →
      (oracle a j).isSome = true := by
  intro rem
  induction rem with
  | zero => intro i a j h; rw [firstHitIn_zero] at h; cases h
  | succ rem ih =>
    intro i a j h
    rw [firstHitIn_succ] at h
    rcases hr : rowHit (oracle i) with _ | j'
    · rw [hr] at h
      exact ih (i + 1) a j h
    · rw [hr] at h
      simp at h
      obtain ⟨rfl, rfl⟩ := h
      exact rowHit_isSome hr

theorem allFail_firstHitIn_none (oracle : FetchOracle)
    (hall : ∀ a j, oracle a j = none) :
    ∀ rem i, firstHitIn oracle i rem = none := by
  intro rem
  induction rem with
  | zero => intro i; exact firstHitIn_zero oracle i
  | succ rem ih =>
    intro i
    rw [firstHitIn_succ]
    have hr : rowHit (oracle i) = none := by
      simp [rowHit, hall]
    rw [hr]
    exact ih (i + 1)

/-! ## The per-host limiter invariant -/

theorem findAdmit_lt (M : Nat) (act : Str → Nat) :
    ∀ q h q', findAdmit M act q = some (h, q') → act h < M := by
  intro q
  induction q with
  | nil => intro h q' hf; cases hf
  | cons a rest ih =>
    intro h q' hf
    unfold findAdmit at hf
    by_cases ha : act a < M
    · rw [if_pos ha] at hf
      cases hf
      exact ha
    · rw [if_neg ha] at hf
      rcases hrec : findAdmit M act rest with _ | ⟨h2, rest2⟩
      · rw [hrec] at hf; cases hf
      · rw [hrec] at hf
        cases hf
        exact ih _ _ hrec

theorem pump_bound (M : Nat) (s : HLState) (hb : ∀ x, s.act x ≤ M) :
    ∀ x, (pump M s).act x ≤ M := by
  intro x
  unfold pump
  rcases hf : findAdmit M s.act s.queue with _ | ⟨h, q'⟩
  · exact hb x
  · simp only []
    by_cases hx : x = h
    · rw [if_pos hx]
      have := findAdmit_lt M s.act s.queue h q' hf
      subst hx
      omega
    · rw [if_neg hx]
      exact hb x

theorem settleDec_le (act : Str → Nat) (h x : Str) :
    settleDec act h x ≤ act x := by
  unfold settleDec
  by_cases hx : x = h
  · rw [if_pos hx]
    subst hx
    by_cases h0 : act x = 0 <;> simp [h0]
  · rw [if_neg hx]

theorem HLStep_bound {M : Nat} {s s' : HLState} (hstep : HLStep M s s')
    (hb : ∀ x, s.act x ≤ M) : ∀ x, s'.act x ≤ M := by
  cases hstep with
  | schedule h s =>
    exact pump_bound M _ hb
  | settle h s hrun =>
    apply pump_bound M
    intro x
    exact le_trans (settleDec_le s.act h x) (hb x)

/-! ## Claim theorems -/

/-- C1 (code bug witnessed): for the two-item request
`[{url:"https://h/x", filename:"FAILED.txt"}, {url:"https://h/y"}]` where
item 0's fetch succeeds with PNG content and item 1 exhausts all retries,
the `FAILED.txt` diagnostic write replaces the image entry of the same name
(JSZip keys entries by name), leaving an archive with only 1 image entry
for N = 2 items plus the diagnostic — contradicting the N-image-entries
invariant and the source's own comment that the ZIP "never omits entries
... so count & names match". -/
theorem post_failed_txt_collision_drops_image :
    countImg (buildArchive
      (fun i => if i = 0 then Except.ok ⟨[1], str "image/png"⟩
                else Except.error (str "Exhausted retries"))
      [⟨some (str "https://h/x"), some (str "FAILED.txt")⟩,
       ⟨some (str "https://h/y"), none⟩]) = 1 ∧
    countTxt (buildArchive
      (fun i => if i = 0 then Except.ok ⟨[1], str "image/png"⟩
                else Except.error (str "Exhausted retries"))
      [⟨some (str "https://h/x"), some (str "FAILED.txt")⟩,
       ⟨some (str "https://h/y"), none⟩]) = 1 ∧
    (buildArchive
      (fun i => if i = 0 then Except.ok ⟨[1], str "image/png"⟩
                else Except.error (str "Exhausted retries"))
      [⟨some (str "https://h/x"), some (str "FAILED.txt")⟩,
       ⟨some (str "https://h/y"), none⟩]).length = 2 := by
  refine ⟨by decide, by decide, by decide⟩

/-- C2: in every archive-building run (any items, any fetch outcomes), the
names produced by filename resolution are pairwise distinct under
case-insensitive comparison, and every one of them carries an extension
(final dot-suffix) — supplied, inferred from the content-type, inferred
from the URL path, or defaulted. -/
theorem resolved_names_unique_and_extended (oracle : ItemOracle) (files : List Item) :
    ((buildState oracle files).namesRev.map toLowerStr).Nodup ∧
    ∀ n ∈ (buildState oracle files).namesRev, hasExt n = true := by
  obtain ⟨h1, h2, h3⟩ := buildState_inv oracle files
  exact ⟨h1 ▸ h2, h3⟩

/-- C3 counterexample: with every fetch attempt failing, `fetchWithRetries`
ends by THROWING `Error("Exhausted retries")` — in this embedding an
`Except.error` crossing its boundary — instead of returning a `Failure`
value, so the claim that it never raises past its own boundary is false of
the code (the conversion to a failure value happens in its callers'
`catch`). -/
theorem fetchWithRetries_exhaustion_throws :
    (fetchWithRetries (fun _ _ => none) (str "https://h/img.png") 6).2 =
      Except.error (str "Exhausted retries") := by
  rw [fetchWithRetries_eq]
  unfold expectedRun
  rw [allFail_firstHitIn_none _ (fun _ _ => rfl) 6 0]

/-- C3 amended: every outcome of `fetchWithRetries` is either a returned
Success (the bytes and content-type of some HTTP-success try) or exactly
the thrown `Exhausted retries` exception — no other exception escapes,
every per-try failure being swallowed inside the loop; the route handlers
catch that one exception and convert it to their failure handling. -/
theorem fetchWithRetries_ok_or_exhausted_throw (oracle : FetchOracle)
    (url : Str) (attempts : Nat) :
    (∃ a j r, oracle a j = some r ∧
        (fetchWithRetries oracle url attempts).2 = Except.ok r) ∨
      (fetchWithRetries oracle url attempts).2 =
        Except.error (str "Exhausted retries") := by
  rw [fetchWithRetries_eq]
  unfold expectedRun
  rcases hfh : firstHitIn oracle 0 attempts with _ | ⟨a, j⟩
  · right
    rfl
  · left
    have hs := firstHitIn_hit oracle attempts 0 a j hfh
    rcases hr : oracle a j with _ | r
    · rw [hr] at hs; cases hs
    · exact ⟨a, j, r, hr, by simp [resAt, hr]⟩

/-- C4: at every reachable state of the per-host limiter with cap `M`, no
host string has more than `M` simultaneously active jobs: `next()` admits a
queued job only when its host's active count is below the cap and
increments the count on admission, and each started job's settlement
(resolution or rejection) decrements it exactly once. -/
theorem perHostLimiter_cap_invariant (M : Nat) (s : HLState)
    (h : HLReachable M s) : ∀ host, s.act host ≤ M := by
  induction h with
  | refl => intro x; exact Nat.le_of_lt_succ (by simp [initHL])
  | tail _ hstep ih => exact HLStep_bound hstep ih

theorem perHostLimiter_cap_invariant_witness :
    (pump 2 { act := fun _ => 0, queue := [str "a"] }).act (str "a") ≤ 2 := by
  have hreach : HLReachable 2 (pump 2 { act := fun _ => 0, queue := [str "a"] }) :=
    Relation.ReflTransGen.single (HLStep.schedule (str "a") initHL)
  exact perHostLimiter_cap_invariant 2 _ hreach (str "a")

/-- C5: the run of `fetchWithRetries` equals its closed-form schedule: each
attempt first tries the direct URL; on its failure each of the five proxy
relays of `buildProxyUrls` is tried exactly once, in list order, preceded
by a 30 ms sleep; only when the direct try and all proxies fail does a
jittered backoff occur, with base delay 600·(9/5)^i growing geometrically
across attempts; the run stops at the first HTTP success and performs at
most `attempts` attempts before throwing. -/
theorem fetchWithRetries_attempt_schedule (oracle : FetchOracle) (url : Str)
    (attempts : Nat) :
    fetchWithRetries oracle url attempts = expectedRun oracle url attempts :=
  fetchWithRetries_eq oracle url attempts

/-- C6: the single-item GET never surfaces an unhandled exception: a
missing (or empty) `url` parameter yields a 400 client error with no fetch
attempted; with a url present, if every fetch attempt fails the best-effort
handler still answers 200 carrying the fixed placeholder PNG and an image
content-type, while the strict variant passes a non-2xx upstream status
through (and turns a network error into a 502). -/
theorem get_handlers_error_handling (oracle : FetchOracle) :
    (GET none oracle =
      ({ status := 400, body := .text (str "Missing url"), contentType := none }, [])) ∧
    (∀ url, url ≠ [] → (∀ a j, oracle a j = none) →
      (GET (some url) oracle).1 =
        { status := 200, body := .bytes FALLBACK_PNG,
          contentType := some (str "image/png") }) ∧
    (∀ url s ct b, url ≠ [] → statusOk s = false →
      GETstrict (some url) (.resp s ct b) =
        ({ status := s, body := .text (str "Upstream error"), contentType := none },
          true)) ∧
    (∀ url msg, url ≠ [] →
      GETstrict (some url) (.netError msg) =
        ({ status := 502, body := .text (str "Fetch failed"), contentType := none },
          true)) := by
  refine ⟨rfl, ?_, ?_, ?_⟩
  · intro url hne hall
    have herr : (fetchWithRetries oracle url 6).2 =
        Except.error (str "Exhausted retries") := by
      rw [fetchWithRetries_eq]
      unfold expectedRun
      rw [allFail_firstHitIn_none oracle hall 6 0]
    simp [GET, jsTruthy, hne, herr]
  · intro url s ct b hne hs
    simp [GETstrict, jsTruthy, hne, hs]
  · intro url msg hne
    simp [GETstrict, jsTruthy, hne]

theorem get_handlers_error_handling_witness :
    (GET (some (str "u")) (fun _ _ => none)).1 =
      { status := 200, body := .bytes FALLBACK_PNG,
        contentType := some (str "image/png") } ∧
    GETstrict (some (str "u")) (.resp 500 none []) =
      ({ status := 500, body := .text (str "Upstream error"), contentType := none },
        true) :=
  ⟨(get_handlers_error_handling (fun _ _ => none)).2.1 (str "u") (by decide)
      (fun _ _ => rfl),
   (get_handlers_error_handling (fun _ _ => none)).2.2.1 (str "u") 500 none []
      (by decide) (by decide)⟩

/-- C7: an empty, absent or non-array `files` list yields a 400 client
error and no archive; every other outcome is an `application/zip` response
with status 200 — on a fatal orchestration error the outer catch still
ships a minimal valid archive holding one `ERROR.txt` note, so the caller
always receives a parseable file of the promised type. -/
theorem post_archive_error_handling (filesField : Option (List Item))
    (oracle : ItemOracle) (fatal : Option Str) :
    ((filesField.getD []).isEmpty = true →
      POST filesField oracle fatal =
        { status := 400, body := .text (str "No files"), contentType := none }) ∧
    ((filesField.getD []).isEmpty = false →
      (fatal = none →
        POST filesField oracle fatal =
          { status := 200,
            body := .zipStream (buildArchive oracle (filesField.getD [])),
            contentType := some (str "application/zip") }) ∧
      ∀ msg, fatal = some msg →
        POST filesField oracle fatal =
          { status := 200,
            body := .zipStream [(str "ERROR.txt", .txt (errNote msg))],
            contentType := some (str "application/zip") }) := by
  constructor
  · intro he
    simp [POST, he]
  · intro he
    constructor
    · intro hf
      simp [POST, he, hf]
    · intro msg hf
      simp [POST, he, hf]

theorem post_archive_error_handling_witness :
    POST (some []) (fun _ => Except.error (str "x")) none =
      { status := 400, body := .text (str "No files"), contentType := none } ∧
    POST (some [⟨none, none⟩]) (fun _ => Except.error (str "x"))
        (some (str "boom")) =
      { status := 200,
        body := .zipStream [(str "ERROR.txt", .txt (errNote (str "boom")))],
        contentType := some (str "application/zip") } :=
  ⟨(post_archive_error_handling (some []) (fun _ => Except.error (str "x")) none).1
      (by decide),
   ((post_archive_error_handling (some [⟨none, none⟩])
        (fun _ => Except.error (str "x")) (some (str "boom"))).2 (by decide)).2
      (str "boom") rfl⟩

/-- C8 counterexample: for the spec's example request
`[{url:"https://x/a.png"}, {url:"https://x/a.png", filename:"a"}]` with
both fetches succeeding with PNG content, the archive's entry names are
`image_1.png` and `a.png` — not `a.png` and `a_2.png`: the code derives the
default name from the item index (`image_${idx+1}`), never from the URL
path, so the two items do not collide at all. -/
theorem naming_example_counterexample :
    ((buildArchive
        (fun i => Except.ok (if i = 0 then FetchOk.mk [1] (str "image/png")
                             else FetchOk.mk [2] (str "image/png")))
        [⟨some (str "https://x/a.png"), none⟩,
         ⟨some (str "https://x/a.png"), some (str "a")⟩]).map Prod.fst =
      [str "image_1.png", str "a.png"]) ∧
    str "a_2.png" ∉ ((buildArchive
        (fun i => Except.ok (if i = 0 then FetchOk.mk [1] (str "image/png")
                             else FetchOk.mk [2] (str "image/png")))
        [⟨some (str "https://x/a.png"), none⟩,
         ⟨some (str "https://x/a.png"), some (str "a")⟩]).map Prod.fst) := by
  refine ⟨by decide, by decide⟩

/-- C8 amended: for that request, with both fetches succeeding with any
bytes and any PNG content-type, the archive has exactly the two entries
`image_1.png` (from the index-based default name) and `a.png`. -/
theorem naming_example_amended (b0 b1 : List Nat) (ct0 ct1 : Str)
    (h0 : hasSub (str "png") (toLowerStr ct0) = true)
    (h1 : hasSub (str "png") (toLowerStr ct1) = true) :
    (buildArchive
        (fun i => Except.ok (if i = 0 then FetchOk.mk b0 ct0 else FetchOk.mk b1 ct1))
        [⟨some (str "https://x/a.png"), none⟩,
         ⟨some (str "https://x/a.png"), some (str "a")⟩]).map Prod.fst =
      [str "image_1.png", str "a.png"] := by
  have hi0 : inferExt ct0 (str "https://x/a.png") = str ".png" := by
    unfold inferExt
    rw [if_pos h0]
  have hi1 : inferExt ct1 (str "https://x/a.png") = str ".png" := by
    unfold inferExt
    rw [if_pos h1]
  have hs0 : sanitize (getOr none (defaultName 0)) = str "image_1" := by decide
  have hs1 : sanitize (getOr (some (str "a")) (defaultName 1)) = str "a" := by decide
  have he0 : hasExt (str "image_1") = false := by decide
  have he1 : hasExt (str "a") = false := by decide
  have hu0 : ensureUnique (str "image_1" ++ str ".png") ([] : List Str) =
      (str "image_1.png", [str "image_1.png"]) := by decide
  have hu1 : ensureUnique (str "a" ++ str ".png") [str "image_1.png"] =
      (str "a.png", [str "a.png", str "image_1.png"]) := by decide
  have hne : ¬(str "https://x/a.png" = ([] : Str)) := by decide
  have hst1 : processItem (Except.ok ⟨b0, ct0⟩) 0
      ⟨some (str "https://x/a.png"), none⟩ initAsm =
      { used := [str "image_1.png"],
        entries := [(str "image_1.png", ZData.img b0)],
        failures := [], namesRev := [str "image_1.png"] } := by
    unfold processItem
    simp only [jsTruthy, hs0, hi0, he0, hu0, initAsm, zipFile]
    rw [if_neg hne]
    simp [hi0, hu0, zipFile]
  have hst2 : processItem (Except.ok ⟨b1, ct1⟩) 1
      ⟨some (str "https://x/a.png"), some (str "a")⟩
      { used := [str "image_1.png"],
        entries := [(str "image_1.png", ZData.img b0)],
        failures := [], namesRev := [str "image_1.png"] } =
      { used := [str "a.png", str "image_1.png"],
        entries := [(str "image_1.png", ZData.img b0), (str "a.png", ZData.img b1)],
        failures := [],
        namesRev := [str "a.png", str "image_1.png"] } := by
    unfold processItem
    simp only [jsTruthy, hs1, hi1, he1, hu1, zipFile]
    rw [if_neg hne]
    simp [hi1, hu1, zipFile]
    decide
  have hbs : buildState
      (fun i => Except.ok (if i = 0 then FetchOk.mk b0 ct0 else FetchOk.mk b1 ct1))
      [⟨some (str "https://x/a.png"), none⟩,
       ⟨some (str "https://x/a.png"), some (str "a")⟩] =
      { used := [str "a.png", str "image_1.png"],
        entries := [(str "image_1.png", ZData.img b0), (str "a.png", ZData.img b1)],
        failures := [],
        namesRev := [str "a.png", str "image_1.png"] } := by
    unfold buildState
    simp only [List.enum, List.enumFrom, List.foldl]
    norm_num
    rw [hst1, hst2]
  unfold buildArchive
  rw [hbs]
  simp

theorem naming_example_amended_witness :
    (buildArchive
        (fun i => Except.ok (if i = 0 then FetchOk.mk [1] (str "image/png")
                             else FetchOk.mk [2] (str "image/png")))
        [⟨some (str "https://x/a.png"), none⟩,
         ⟨some (str "https://x/a.png"), some (str "a")⟩]).map Prod.fst =
      [str "image_1.png", str "a.png"] :=
  naming_example_amended [1] [2] (str "image/png") (str "image/png")
    (by decide) (by decide)

/-- C9: `ensureUnique` is a total function (its candidate loop is realised
by a bounded search whose sufficiency is proved from the pairwise
distinctness of the suffixed candidates), it returns the first candidate in
loop order whose lower-cased form was not in the used set on entry, and it
registers exactly that lower-cased form. -/
theorem ensureUnique_terminates_fresh (name : Str) (used : List Str) :
    toLowerStr (ensureUnique name used).1 ∉ used ∧
    (ensureUnique name used).2 = toLowerStr (ensureUnique name used).1 :: used ∧
    ∃ k, (ensureUnique name used).1 = candidateAt name k ∧
      ∀ j, j < k → toLowerStr (candidateAt name j) ∈ used :=
  ensureUnique_spec name used

/-- C10: the diagnostic entry is written under the fixed name `FAILED.txt`
without being checked against or registered in the used-name set: for the
request `[{url:"https://h/x", filename:"FAILED.txt"}, {}]` (second item has
no url, hence records a failure) with item 0 succeeding, filename
resolution produces the image name `FAILED.txt`, the diagnostic write
replaces that image entry, and the final archive has 2 entries — not one
distinct entry per item plus a distinct diagnostic entry (3). -/
theorem failed_txt_diag_shadows_image :
    ((buildState (fun _ => Except.ok ⟨[5], str "image/png"⟩)
        [⟨some (str "https://h/x"), some (str "FAILED.txt")⟩,
         ⟨none, none⟩]).namesRev =
      [str "image_2.png", str "FAILED.txt"]) ∧
    ((buildArchive (fun _ => Except.ok ⟨[5], str "image/png"⟩)
        [⟨some (str "https://h/x"), some (str "FAILED.txt")⟩,
         ⟨none, none⟩]).map Prod.fst =
      [str "FAILED.txt", str "image_2.png"]) ∧
    countImg (buildArchive (fun _ => Except.ok ⟨[5], str "image/png"⟩)
        [⟨some (str "https://h/x"), some (str "FAILED.txt")⟩,
         ⟨none, none⟩]) = 1 ∧
    countTxt (buildArchive (fun _ => Except.ok ⟨[5], str "image/png"⟩)
        [⟨some (str "https://h/x"), some (str "FAILED.txt")⟩,
         ⟨none, none⟩]) = 1 ∧
    (buildArchive (fun _ => Except.ok ⟨[5], str "image/png"⟩)
        [⟨some (str "https://h/x"), some (str "FAILED.txt")⟩,
         ⟨none, none⟩]).length = 2 := by
  refine ⟨by decide, by decide, by decide, by decide, by decide⟩
